import Mathlib

/-!
Shallow embedding of `src/app.py` (FlexReid/finalFlexStream), an HLS
capture-and-relay service, together with proofs about its behaviour.

Modelling conventions:
* A Python `str` is a list of Unicode code points (`PyStr := List Nat`);
  a Python `bytes` value is a list of byte values (`List Nat`, entries < 256).
* Pure library helpers the code calls (`urllib.parse.quote_plus`,
  `urllib.parse.unquote_plus`, `str.strip`, `str.splitlines`) are modelled
  concretely below, following the CPython semantics.
* External collaborators — the network (`requests`), `urllib.parse.urljoin`,
  the `rapidfuzz` similarity scorer, and the browser events observed by
  Playwright — are passed to the embedded functions as explicit parameters,
  at exactly the points where `app.py` invokes them.
-/

/-- A Python `str`: a sequence of Unicode code points. -/
abbrev PyStr := List Nat

/-- Code points of a Lean string literal (helper for concrete inputs). -/
def pyOfString (s : String) : PyStr := s.data.map Char.toNat

/-- The Unicode whitespace set removed by Python's `str.strip()`. -/
def isPySpace (n : Nat) : Bool :=
  (9 ≤ n && n ≤ 13) || (28 ≤ n && n ≤ 31) || n == 32 || n == 133 || n == 160 ||
  n == 0x1680 || (0x2000 ≤ n && n ≤ 0x200A) || n == 0x2028 || n == 0x2029 ||
  n == 0x202F || n == 0x205F || n == 0x3000

/-- Python `str.strip()`: drop leading and trailing whitespace. -/
def pyStrip (s : PyStr) : PyStr :=
  ((s.dropWhile isPySpace).reverse.dropWhile isPySpace).reverse

/-- The line-boundary code points recognised by Python's `str.splitlines()`. -/
def isLineBreak (n : Nat) : Bool :=
  n == 10 || n == 11 || n == 12 || n == 13 || n == 28 || n == 29 || n == 30 ||
  n == 133 || n == 0x2028 || n == 0x2029

/-- Split off the first line of `s`: the line's content and the remainder
after its terminator (a CR-LF pair is consumed as a single boundary). -/
def takeLine : PyStr → PyStr × PyStr
  | [] => ([], [])
  | c :: cs =>
    if isLineBreak c then
      ([], if c == 13 then (match cs with | 10 :: cs2 => cs2 | _ => cs) else cs)
    else
      let p := takeLine cs
      (c :: p.1, p.2)

/-- Fuelled worker for `splitlines` (fuel bounds the number of lines). -/
def splitlinesGo : Nat → PyStr → List PyStr
  | 0, _ => []
  | _, [] => []
  | fuel + 1, s => (takeLine s).1 :: splitlinesGo fuel (takeLine s).2

/-- Python `str.splitlines()`. -/
def splitlines (s : PyStr) : List PyStr := splitlinesGo s.length s

/-- Decimal representation of a natural number, as a `PyStr`
(Python's `f"...{seq}"` interpolation of an `int`). -/
def natToStr (n : Nat) : PyStr := pyOfString (toString n)

/-! ### `urllib.parse.quote_plus` / `unquote_plus`

CPython's `quote_plus` UTF-8-encodes the string and percent-encodes every
byte outside the always-safe set (ASCII alphanumerics and `_.-~`), mapping
spaces to `+`; `unquote_plus` maps `+` to space, then decodes maximal runs
of `%XX` escapes as UTF-8 with `errors='replace'`. -/

/-- Characters `urllib.parse.quote` leaves unescaped (`safe=''`):
ASCII alphanumerics and `_`, `.`, `-`, `~`. -/
def isQuoteSafe (n : Nat) : Bool :=
  (65 ≤ n && n ≤ 90) || (97 ≤ n && n ≤ 122) || (48 ≤ n && n ≤ 57) ||
  n == 95 || n == 46 || n == 45 || n == 126

/-- UTF-8 encoding of one code point. -/
def utf8EncodeCp (n : Nat) : List Nat :=
  if n < 0x80 then [n]
  else if n < 0x800 then [0xC0 + n / 64, 0x80 + n % 64]
  else if n < 0x10000 then [0xE0 + n / 4096, 0x80 + n / 64 % 64, 0x80 + n % 64]
  else [0xF0 + n / 262144, 0x80 + n / 4096 % 64, 0x80 + n / 64 % 64, 0x80 + n % 64]

/-- Code point of the uppercase hexadecimal digit for `d < 16`. -/
def hexUpper (d : Nat) : Nat := if d < 10 then 48 + d else 55 + d

/-- `%XX` escape of one byte. -/
def pctByte (b : Nat) : List Nat := [37, hexUpper (b / 16), hexUpper (b % 16)]

/-- `quote_plus` on a single code point. -/
def quote_plusChar (n : Nat) : List Nat :=
  if isQuoteSafe n then [n]
  else if n == 32 then [43]
  else ((utf8EncodeCp n).map pctByte).flatten

/-- `urllib.parse.quote_plus`. -/
def quote_plus (s : PyStr) : PyStr := (s.map quote_plusChar).flatten

/-- Value of a hexadecimal digit character (either case), if it is one. -/
def hexVal (n : Nat) : Option Nat :=
  if 48 ≤ n ∧ n ≤ 57 then some (n - 48)
  else if 65 ≤ n ∧ n ≤ 70 then some (n - 55)
  else if 97 ≤ n ∧ n ≤ 102 then some (n - 87)
  else none

/-- Fuelled worker for UTF-8 decoding with `errors='replace'`: each step
consumes one fuel unit and at least one byte, so fuel equal to the byte
count always suffices. Malformed sequences produce U+FFFD and decoding
resynchronises on the next byte. -/
def utf8DecodeGo : Nat → List Nat → List Nat
  | 0, _ => []
  | _ + 1, [] => []
  | fuel + 1, b :: bs =>
    if b < 0x80 then b :: utf8DecodeGo fuel bs
    else if b < 0xC0 then 0xFFFD :: utf8DecodeGo fuel bs
    else if b < 0xE0 then
      match bs with
      | b1 :: bs1 =>
        if 0x80 ≤ b1 ∧ b1 < 0xC0 then
          ((b - 0xC0) * 64 + (b1 - 0x80)) :: utf8DecodeGo fuel bs1
        else 0xFFFD :: utf8DecodeGo fuel (b1 :: bs1)
      | [] => [0xFFFD]
    else if b < 0xF0 then
      match bs with
      | b1 :: b2 :: bs2 =>
        if (0x80 ≤ b1 ∧ b1 < 0xC0) ∧ (0x80 ≤ b2 ∧ b2 < 0xC0) then
          ((b - 0xE0) * 4096 + (b1 - 0x80) * 64 + (b2 - 0x80)) :: utf8DecodeGo fuel bs2
        else 0xFFFD :: utf8DecodeGo fuel bs
      | _ => 0xFFFD :: utf8DecodeGo fuel bs
    else if b < 0xF8 then
      match bs with
      | b1 :: b2 :: b3 :: bs3 =>
        if (0x80 ≤ b1 ∧ b1 < 0xC0) ∧ (0x80 ≤ b2 ∧ b2 < 0xC0) ∧ (0x80 ≤ b3 ∧ b3 < 0xC0) then
          ((b - 0xF0) * 262144 + (b1 - 0x80) * 4096 + (b2 - 0x80) * 64 + (b3 - 0x80))
            :: utf8DecodeGo fuel bs3
        else 0xFFFD :: utf8DecodeGo fuel bs
      | _ => 0xFFFD :: utf8DecodeGo fuel bs
    else 0xFFFD :: utf8DecodeGo fuel bs

/-- UTF-8 decoding of a byte list with `errors='replace'`. -/
def utf8DecodeReplace (bs : List Nat) : List Nat := utf8DecodeGo bs.length bs

/-- Fuelled worker for `unquote`: walk the string keeping a pending buffer of
bytes read from consecutive `%XX` escapes; the buffer is UTF-8-decoded and
flushed whenever a literal character (or the end of input) is reached. Each
step consumes one fuel unit and at least one character. -/
def unquoteGo : Nat → PyStr → List Nat → PyStr
  | 0, _, buf => utf8DecodeReplace buf
  | _ + 1, [], buf => utf8DecodeReplace buf
  | fuel + 1, c :: rest, buf =>
    if c == 37 then
      match rest with
      | h1 :: h2 :: rest2 =>
        match hexVal h1, hexVal h2 with
        | some a, some b => unquoteGo fuel rest2 (buf ++ [a * 16 + b])
        | _, _ => utf8DecodeReplace buf ++ c :: unquoteGo fuel rest []
      | _ => utf8DecodeReplace buf ++ c :: unquoteGo fuel rest []
    else utf8DecodeReplace buf ++ c :: unquoteGo fuel rest []

/-- `urllib.parse.unquote_plus`: `+` becomes a space, then `%XX` runs are
decoded as UTF-8. -/
def unquote_plus (s : PyStr) : PyStr :=
  unquoteGo s.length (s.map fun c => if c == 43 then 32 else c) []

/-! ### Round trip: `unquote_plus` inverts `quote_plus`

The key fact behind claims C1 and C7: decoding the proxy-embedded URL
recovers the absolute URL exactly, for every string of valid code points. -/

theorem utf8EncodeCp_length_pos (c : Nat) : 1 ≤ (utf8EncodeCp c).length := by
  unfold utf8EncodeCp
  split
  · simp
  · split
    · simp
    · split <;> simp

set_option maxRecDepth 8000 in
theorem utf8DecodeGo_encode (c : Nat) (hc : c < 0x110000) (f : Nat) (bs : List Nat) :
    utf8DecodeGo (f + 1) (utf8EncodeCp c ++ bs) = c :: utf8DecodeGo f bs := by
  by_cases h1 : c < 0x80
  · simp only [utf8EncodeCp, if_pos h1, List.cons_append, List.nil_append]
    simp only [utf8DecodeGo, if_pos h1]
  · by_cases h2 : c < 0x800
    · simp only [utf8EncodeCp, if_neg h1, if_pos h2, List.cons_append, List.nil_append]
      simp only [utf8DecodeGo]
      rw [if_neg (by omega), if_neg (by omega), if_pos (by omega)]
      rw [if_pos (by omega)]
      congr 1
      omega
    · by_cases h3 : c < 0x10000
      · simp only [utf8EncodeCp, if_neg h1, if_neg h2, if_pos h3, List.cons_append,
          List.nil_append]
        simp only [utf8DecodeGo]
        rw [if_neg (by omega), if_neg (by omega), if_neg (by omega), if_pos (by omega)]
        rw [if_pos (by refine ⟨by omega, by omega⟩)]
        congr 1
        omega
      · simp only [utf8EncodeCp, if_neg h1, if_neg h2, if_neg h3, List.cons_append,
          List.nil_append]
        simp only [utf8DecodeGo]
        rw [if_neg (by omega), if_neg (by omega), if_neg (by omega), if_neg (by omega),
          if_pos (by omega)]
        rw [if_pos (by refine ⟨by omega, by omega, by omega⟩)]
        congr 1
        omega

/-- UTF-8 encoding of a whole code-point list. -/
def utf8Run (r : PyStr) : List Nat := (r.map utf8EncodeCp).flatten

/-- Percent-escapes of a whole byte list. -/
def pctTriples (bs : List Nat) : List Nat := (bs.map pctByte).flatten

/-- The `+`-to-space substitution performed by `unquote_plus`. -/
def plusToSpace (s : PyStr) : PyStr := s.map fun c => if c == 43 then 32 else c

/-- What one quoted character looks like after the `+`-to-space substitution. -/
def quoteSubstChar (n : Nat) : List Nat :=
  if isQuoteSafe n then [n]
  else if n == 32 then [32]
  else pctTriples (utf8EncodeCp n)

theorem utf8DecodeGo_nil (f : Nat) : utf8DecodeGo f [] = [] := by
  cases f <;> rfl

theorem unquoteGo_nil (f : Nat) (buf : List Nat) :
    unquoteGo f [] buf = utf8DecodeReplace buf := by
  cases f <;> rfl

theorem utf8Run_le_length (r : PyStr) : r.length ≤ (utf8Run r).length := by
  induction r with
  | nil => simp [utf8Run]
  | cons c r ih =>
    simp only [utf8Run, List.map_cons, List.flatten_cons, List.length_append,
      List.length_cons]
    have := utf8EncodeCp_length_pos c
    simp only [utf8Run] at ih
    omega

theorem utf8DecodeGo_run (r : PyStr) (h : ∀ c ∈ r, c < 0x110000) (f : Nat) :
    utf8DecodeGo (f + r.length) (utf8Run r) = r := by
  induction r generalizing f with
  | nil => simpa [utf8Run] using utf8DecodeGo_nil f
  | cons c r ih =>
    have hc : c < 0x110000 := h c (by simp)
    have hr : ∀ x ∈ r, x < 0x110000 := fun x hx => h x (by simp [hx])
    simp only [utf8Run, List.map_cons, List.flatten_cons, List.length_cons]
    rw [show ((List.map utf8EncodeCp r).flatten : List Nat) = utf8Run r from rfl]
    rw [show f + (r.length + 1) = (f + r.length) + 1 from by omega]
    rw [utf8DecodeGo_encode c hc (f + r.length) (utf8Run r)]
    rw [ih hr f]

theorem utf8DecodeReplace_run (r : PyStr) (h : ∀ c ∈ r, c < 0x110000) :
    utf8DecodeReplace (utf8Run r) = r := by
  unfold utf8DecodeReplace
  have hle := utf8Run_le_length r
  have : (utf8Run r).length = ((utf8Run r).length - r.length) + r.length := by omega
  rw [this, utf8DecodeGo_run r h]

theorem hexUpper_ge_48 (d : Nat) : 48 ≤ hexUpper d := by
  unfold hexUpper
  split <;> omega

theorem hexVal_hexUpper (d : Nat) (h : d < 16) : hexVal (hexUpper d) = some d := by
  unfold hexVal hexUpper
  by_cases hd : d < 10
  · rw [if_pos hd, if_pos (by omega)]
    congr 1
    omega
  · rw [if_neg hd, if_neg (by omega), if_pos (by omega)]
    congr 1
    omega

theorem utf8EncodeCp_lt_256 (c : Nat) (hc : c < 0x110000) :
    ∀ b ∈ utf8EncodeCp c, b < 256 := by
  unfold utf8EncodeCp
  split
  · intro b hb
    simp at hb
    omega
  · split
    · intro b hb
      simp at hb
      rcases hb with h | h <;> omega
    · split
      · intro b hb
        simp at hb
        rcases hb with h | h | h <;> omega
      · intro b hb
        simp at hb
        rcases hb with h | h | h | h <;> omega

theorem pctTriples_length (bs : List Nat) : (pctTriples bs).length = 3 * bs.length := by
  induction bs with
  | nil => simp [pctTriples]
  | cons b bs ih =>
    simp only [pctTriples, List.map_cons, List.flatten_cons, List.length_append,
      List.length_cons, pctByte, List.length_nil] at ih ⊢
    omega

theorem unquoteGo_pctTriples (bs : List Nat) (h : ∀ b ∈ bs, b < 256) (t : PyStr)
    (buf : List Nat) (f : Nat) :
    unquoteGo (bs.length + f) (pctTriples bs ++ t) buf = unquoteGo f t (buf ++ bs) := by
  induction bs generalizing buf with
  | nil => simp [pctTriples]
  | cons b bs ih =>
    have hb : b < 256 := h b (by simp)
    have hbs : ∀ x ∈ bs, x < 256 := fun x hx => h x (by simp [hx])
    simp only [pctTriples, List.map_cons, List.flatten_cons, pctByte, List.length_cons,
      List.cons_append, List.nil_append]
    have : bs.length + 1 + f = (bs.length + f) + 1 := by omega
    rw [this]
    simp only [unquoteGo]
    rw [if_pos (by decide)]
    simp only [hexVal_hexUpper (b / 16) (by omega), hexVal_hexUpper (b % 16) (by omega)]
    show unquoteGo (bs.length + f) ((List.map pctByte bs).flatten ++ t)
        (buf ++ [b / 16 * 16 + b % 16]) = unquoteGo f t (buf ++ b :: bs)
    rw [show b / 16 * 16 + b % 16 = b from by omega]
    rw [show ((List.map pctByte bs).flatten : List Nat) = pctTriples bs from rfl]
    rw [ih hbs (buf ++ [b])]
    simp

theorem plusToSpace_quote_plusChar (c : Nat) :
    plusToSpace (quote_plusChar c) = quoteSubstChar c := by
  unfold quote_plusChar quoteSubstChar
  by_cases hs : isQuoteSafe c
  · rw [if_pos hs, if_pos hs]
    have hc : c ≠ 43 := by
      intro h
      rw [h] at hs
      exact absurd hs (by decide)
    simp [plusToSpace, hc]
  · rw [if_neg hs, if_neg hs]
    by_cases h32 : c == 32
    · rw [if_pos h32, if_pos h32]
      simp [plusToSpace]
    · rw [if_neg h32, if_neg h32]
      show plusToSpace (pctTriples (utf8EncodeCp c)) = pctTriples (utf8EncodeCp c)
      unfold plusToSpace pctTriples
      rw [List.map_flatten, List.map_map]
      congr 1
      apply List.map_congr_left
      intro b _
      simp only [Function.comp_apply, pctByte, List.map_cons, List.map_nil]
      have g1 := hexUpper_ge_48 (b / 16)
      have g2 := hexUpper_ge_48 (b % 16)
      have h37 : ¬ ((37 : Nat) == 43) = true := by decide
      have hA : ¬ ((hexUpper (b / 16)) == 43) = true := by
        simp only [beq_iff_eq]
        omega
      have hB : ¬ ((hexUpper (b % 16)) == 43) = true := by
        simp only [beq_iff_eq]
        omega
      simp [h37, hA, hB]

theorem plusToSpace_quote_plus (s : PyStr) :
    plusToSpace (quote_plus s) = (s.map quoteSubstChar).flatten := by
  unfold quote_plus plusToSpace
  rw [List.map_flatten, List.map_map]
  congr 1
  apply List.map_congr_left
  intro c _
  exact plusToSpace_quote_plusChar c

theorem unquoteGo_quoted (s : PyStr) (hs : ∀ c ∈ s, c < 0x110000) :
    ∀ (r : PyStr), (∀ c ∈ r, c < 0x110000) →
    ∀ f, ((s.map quoteSubstChar).flatten).length ≤ f →
    unquoteGo f ((s.map quoteSubstChar).flatten) (utf8Run r) = r ++ s := by
  induction s with
  | nil =>
    intro r hr f _
    simp only [List.map_nil, List.flatten_nil]
    rw [unquoteGo_nil, utf8DecodeReplace_run r hr]
    simp
  | cons c s ih =>
    intro r hr f hf
    have hc : c < 0x110000 := hs c (by simp)
    have hs' : ∀ x ∈ s, x < 0x110000 := fun x hx => hs x (by simp [hx])
    simp only [List.map_cons, List.flatten_cons] at hf ⊢
    by_cases hsafe : isQuoteSafe c
    · -- safe character: passes through literally, flushing the buffer
      have hq : quoteSubstChar c = [c] := by
        unfold quoteSubstChar
        rw [if_pos hsafe]
      rw [hq] at hf ⊢
      have hlen : 1 + ((s.map quoteSubstChar).flatten).length ≤ f := by
        simp only [List.length_append, List.length_cons, List.length_nil] at hf
        omega
      obtain ⟨f', rfl⟩ : ∃ f', f = f' + 1 := ⟨f - 1, by omega⟩
      have hne37 : ¬ (c == 37) = true := by
        intro hcontr
        simp only [beq_iff_eq] at hcontr
        rw [hcontr] at hsafe
        exact absurd hsafe (by decide)
      simp only [List.cons_append, List.nil_append]
      simp only [unquoteGo]
      rw [if_neg hne37, utf8DecodeReplace_run r hr]
      have hrec := ih hs' [] (by simp) f' (by omega)
      simp only [utf8Run, List.map_nil, List.flatten_nil, List.nil_append] at hrec
      rw [hrec]
    · by_cases h32 : c == 32
      · -- the space character: became '+', substituted back to a space
        have hc32 : c = 32 := by simpa using h32
        subst hc32
        have hq : quoteSubstChar 32 = [32] := by decide
        rw [hq] at hf ⊢
        have hlen : 1 + ((s.map quoteSubstChar).flatten).length ≤ f := by
          simp only [List.length_append, List.length_cons, List.length_nil] at hf
          omega
        obtain ⟨f', rfl⟩ : ∃ f', f = f' + 1 := ⟨f - 1, by omega⟩
        simp only [List.cons_append, List.nil_append]
        simp only [unquoteGo]
        rw [if_neg (by decide), utf8DecodeReplace_run r hr]
        have hrec := ih hs' [] (by simp) f' (by omega)
        simp only [utf8Run, List.map_nil, List.flatten_nil, List.nil_append] at hrec
        rw [hrec]
      · -- unsafe character: its escapes are absorbed into the byte buffer
        have hq : quoteSubstChar c = pctTriples (utf8EncodeCp c) := by
          unfold quoteSubstChar
          rw [if_neg hsafe, if_neg h32]
        rw [hq] at hf ⊢
        have henc := utf8EncodeCp_length_pos c
        have hlen : (utf8EncodeCp c).length + ((s.map quoteSubstChar).flatten).length ≤ f := by
          rw [List.length_append, pctTriples_length] at hf
          omega
        obtain ⟨f'', rfl⟩ : ∃ f'', f = (utf8EncodeCp c).length + f'' :=
          ⟨f - (utf8EncodeCp c).length, by omega⟩
        rw [unquoteGo_pctTriples (utf8EncodeCp c) (utf8EncodeCp_lt_256 c hc)]
        rw [show utf8Run r ++ utf8EncodeCp c = utf8Run (r ++ [c]) from by
          unfold utf8Run
          rw [List.map_append, List.flatten_append]
          simp]
        have hr' : ∀ x ∈ r ++ [c], x < 0x110000 := by
          intro x hx
          rcases List.mem_append.mp hx with hxx | hxx
          · exact hr x hxx
          · simp only [List.mem_singleton] at hxx
            omega
        rw [ih hs' (r ++ [c]) hr' f'' (by omega)]
        simp

/-- Decoding inverts encoding: for every string of valid Unicode code points,
`unquote_plus (quote_plus s) = s`. -/
theorem unquote_plus_quote_plus (s : PyStr) (h : ∀ c ∈ s, c < 0x110000) :
    unquote_plus (quote_plus s) = s := by
  unfold unquote_plus
  rw [show ((quote_plus s).map fun c => if c == 43 then 32 else c) =
      plusToSpace (quote_plus s) from rfl]
  rw [plusToSpace_quote_plus]
  have := unquoteGo_quoted s h [] (by simp) (quote_plus s).length
    (by rw [← plusToSpace_quote_plus]; simp [plusToSpace])
  simp only [utf8Run, List.map_nil, List.flatten_nil, List.nil_append] at this
  exact this

example : pyStrip (pyOfString "  #EXTM3U ") = pyOfString "#EXTM3U" := by decide
example : splitlines (pyOfString "a\r\nb\n\nc") = [pyOfString "a", pyOfString "b", [], pyOfString "c"] := by decide
example : quote_plus (pyOfString "a b/é") = pyOfString "a+b%2F%C3%A9" := by decide
example : unquote_plus (pyOfString "a+b%2F%C3%A9") = pyOfString "a b/é" := by decide
example : unquote_plus (pyOfString "%41xyz%E2%82%AC%4") = pyOfString "Axyz€%4" := by decide
example : natToStr 42 = [52, 50] := by decide

/-! ### `rewrite_playlist` (src/app.py lines 242–255) — claim C1

`urljoin` is the `urllib.parse.urljoin` collaborator, passed as a parameter. -/

/-- The test `if not line_stripped or line_stripped.startswith('#')` from the
rewrite loop: blank and comment/directive lines pass through unchanged. -/
def keptLine (line : PyStr) : Bool :=
  match pyStrip line with
  | [] => true
  | c :: _ => c == 35

/-- The proxied form `f"/segment?u={quote_plus(abs_url)}&i={seq}"` of one
segment line. -/
def segRefLine (urljoin : PyStr → PyStr → PyStr) (base line : PyStr) (seq : Nat) : PyStr :=
  pyOfString "/segment?u=" ++ quote_plus (urljoin base (pyStrip line)) ++
    pyOfString "&i=" ++ natToStr seq

/-- The `for line in lines` loop of `rewrite_playlist`, carrying the mutable
`seq` counter. -/
def rewriteLoop (urljoin : PyStr → PyStr → PyStr) (base : PyStr) :
    List PyStr → Nat → List PyStr
  | [], _ => []
  | line :: rest, seq =>
    if keptLine line then line :: rewriteLoop urljoin base rest seq
    else segRefLine urljoin base line seq :: rewriteLoop urljoin base rest (seq + 1)

/-- `rewrite_playlist(original_playlist_url, playlist_text)`: split into lines,
rewrite each non-blank non-`#` line to a `/segment` proxy path with a running
sequence number, and join with newlines. -/
def rewrite_playlist (urljoin : PyStr → PyStr → PyStr)
    (original_playlist_url playlist_text : PyStr) : PyStr :=
  List.intercalate [10] (rewriteLoop urljoin original_playlist_url
    (splitlines playlist_text) 0)

theorem rewriteLoop_length (urljoin : PyStr → PyStr → PyStr) (base : PyStr) :
    ∀ (lines : List PyStr) (seq : Nat),
      (rewriteLoop urljoin base lines seq).length = lines.length := by
  intro lines
  induction lines with
  | nil => intro seq; rfl
  | cons a rest ih =>
    intro seq
    by_cases hk : keptLine a
    · simp [rewriteLoop, hk, ih]
    · simp [rewriteLoop, hk, ih]

theorem rewriteLoop_getElem? (urljoin : PyStr → PyStr → PyStr) (base : PyStr) :
    ∀ (lines : List PyStr) (seq i : Nat),
      (rewriteLoop urljoin base lines seq)[i]? =
        (lines[i]?).map (fun l =>
          if keptLine l then l
          else segRefLine urljoin base l
            (seq + (lines.take i).countP (fun x => !keptLine x))) := by
  intro lines
  induction lines with
  | nil => intro seq i; simp [rewriteLoop]
  | cons a rest ih =>
    intro seq i
    by_cases hk : keptLine a
    · simp only [rewriteLoop, if_pos hk]
      cases i with
      | zero => simp [hk]
      | succ j =>
        simp only [List.getElem?_cons_succ, List.take_succ_cons, List.countP_cons, hk]
        rw [ih seq j]
        cases h : rest[j]? with
        | none => simp
        | some l => simp
    · simp only [rewriteLoop, if_neg hk]
      cases i with
      | zero => simp [hk]
      | succ j =>
        simp only [List.getElem?_cons_succ, List.take_succ_cons, List.countP_cons, hk]
        rw [ih (seq + 1) j]
        cases h : rest[j]? with
        | none => simp
        | some l =>
          have hone : (if (!false) = true then (1 : Nat) else 0) = 1 := by decide
          rw [hone]
          rw [show seq + (List.countP (fun x => !keptLine x) (List.take j rest) + 1)
              = seq + 1 + List.countP (fun x => !keptLine x) (List.take j rest) from by omega]

/-- C1: for every manifest URL and playlist text, `rewrite_playlist` keeps
every blank line and every line whose stripped form starts with `#`
byte-identical, and replaces every other line with
`/segment?u=<E>&i=<k>` where decoding `<E>` yields exactly
`urljoin(manifest URL, stripped line)` and `<k>` counts the previously
rewritten segment lines, so sequence numbers run `0, 1, 2, …` in line
order. (The validity hypothesis says `urljoin` returns genuine Unicode
code points, as every Python `str` does.) -/
theorem rewrite_playlist_spec (urljoin : PyStr → PyStr → PyStr) (u t : PyStr)
    (hval : ∀ l ∈ splitlines t, keptLine l = false →
      ∀ c ∈ urljoin u (pyStrip l), c < 0x110000) :
    ∃ out : List PyStr,
      rewrite_playlist urljoin u t = List.intercalate [10] out ∧
      out.length = (splitlines t).length ∧
      (∀ (i : Nat) (l : PyStr), (splitlines t)[i]? = some l → keptLine l = true → out[i]? = some l) ∧
      (∀ (i : Nat) (l : PyStr), (splitlines t)[i]? = some l → keptLine l = false →
        ∃ E, out[i]? = some (pyOfString "/segment?u=" ++ E ++ pyOfString "&i=" ++
            natToStr (((splitlines t).take i).countP (fun x => !keptLine x))) ∧
          unquote_plus E = urljoin u (pyStrip l)) := by
  refine ⟨rewriteLoop urljoin u (splitlines t) 0, rfl,
    rewriteLoop_length urljoin u (splitlines t) 0, ?_, ?_⟩
  · intro i l hi hkept
    rw [rewriteLoop_getElem? urljoin u (splitlines t) 0 i, hi]
    simp [hkept]
  · intro i l hi hkept
    refine ⟨quote_plus (urljoin u (pyStrip l)), ?_, ?_⟩
    · rw [rewriteLoop_getElem? urljoin u (splitlines t) 0 i, hi]
      simp only [Option.map_some', hkept, Bool.false_eq_true, if_false, Nat.zero_add]
      rfl
    · have hmem : l ∈ splitlines t := by
        have := List.getElem?_eq_some.mp hi
        obtain ⟨hlt, hget⟩ := this
        rw [← hget]
        exact List.getElem_mem hlt
      exact unquote_plus_quote_plus (urljoin u (pyStrip l)) (hval l hmem hkept)

/-- Witness for C1 at a concrete manifest: one directive line, two segment
lines and a blank line, with a concrete stand-in for `urljoin`. -/
theorem rewrite_playlist_spec_witness :
    (∀ l ∈ splitlines (pyOfString "#EXTM3U\nseg1.ts\n\nseg2.ts"),
      keptLine l = false →
      ∀ c ∈ (fun _ rel => pyOfString "http://h/" ++ rel)
        (pyOfString "http://h/p.m3u8") (pyStrip l), c < 0x110000) ∧
    (∃ out : List PyStr,
      rewrite_playlist (fun _ rel => pyOfString "http://h/" ++ rel)
          (pyOfString "http://h/p.m3u8") (pyOfString "#EXTM3U\nseg1.ts\n\nseg2.ts")
        = List.intercalate [10] out ∧
      out.length = (splitlines (pyOfString "#EXTM3U\nseg1.ts\n\nseg2.ts")).length ∧
      (∀ (i : Nat) (l : PyStr), (splitlines (pyOfString "#EXTM3U\nseg1.ts\n\nseg2.ts"))[i]? = some l →
        keptLine l = true → out[i]? = some l) ∧
      (∀ (i : Nat) (l : PyStr), (splitlines (pyOfString "#EXTM3U\nseg1.ts\n\nseg2.ts"))[i]? = some l →
        keptLine l = false →
        ∃ E, out[i]? = some (pyOfString "/segment?u=" ++ E ++ pyOfString "&i=" ++
            natToStr (((splitlines (pyOfString "#EXTM3U\nseg1.ts\n\nseg2.ts")).take i).countP
              (fun x => !keptLine x))) ∧
          unquote_plus E = (fun _ rel => pyOfString "http://h/" ++ rel)
            (pyOfString "http://h/p.m3u8") (pyStrip l))) :=
  ⟨by decide, rewrite_playlist_spec (fun _ rel => pyOfString "http://h/" ++ rel)
    (pyOfString "http://h/p.m3u8") (pyOfString "#EXTM3U\nseg1.ts\n\nseg2.ts") (by decide)⟩

/-! ### The playlist cache and `/proxy_playlist` (src/app.py lines 20–21,
266–285) — claims C2, C3, C10

`time.time()` is modelled by an explicit integer `now` (in arbitrary time
units) sampled once per request, exactly as the handler samples it once at
line 272; the claims depend only on the ordered comparison of a time
difference against the TTL, which integer time expresses faithfully. The
`fetch_bytes` + `bytes.decode('utf-8', errors='ignore')` pair is the
`fetchText` collaborator: `Except.error` is the exception path (network
failure or `raise_for_status` on an HTTP error status); decoding with
`errors='ignore'` never raises. -/

/-- One `_playlist_cache` entry: `{'data': rewritten, 'ts': now}`. -/
structure CacheEntry where
  data : PyStr
  ts : ℤ
deriving DecidableEq

/-- The `_playlist_cache` dict, as an association list keyed by the exact
URL string. -/
abbrev PlaylistCache := List (PyStr × CacheEntry)

/-- Dict lookup `_playlist_cache.get(url)`. -/
def cacheGet (c : PlaylistCache) (k : PyStr) : Option CacheEntry :=
  (c.find? (fun p => p.1 == k)).map (fun p => p.2)

/-- Dict store `_playlist_cache[url] = entry`. -/
def cacheSet : PlaylistCache → PyStr → CacheEntry → PlaylistCache
  | [], k, v => [(k, v)]
  | p :: rest, k, v => if p.1 == k then (k, v) :: rest else p :: cacheSet rest k v

/-- A Flask response from the playlist/segment endpoints. -/
inductive ProxyResult where
  | resp (body : PyStr) (mimetype : PyStr)
  | fail (status : Nat)
deriving DecidableEq

def MIME_M3U8 : PyStr := pyOfString "application/vnd.apple.mpegurl"

/-- Lines 272–275: sample the clock, and answer from the cache when the
entry under the exact key is younger than `CACHE_TTL = 5`. -/
def proxyRead (now : ℤ) (cache : PlaylistCache) (url : PyStr) : Option PyStr :=
  match cacheGet cache url with
  | some e => if now - e.ts < 5 then some e.data else none
  | none => none

/-- Lines 277–285: fetch the manifest (502 on failure), rewrite it, store it
under the key with the sampled timestamp, and return it. The `Nat` counts
upstream fetches (always 1 on this path). -/
def proxyFetchStore (fetchText : PyStr → Except PyStr PyStr)
    (urljoin : PyStr → PyStr → PyStr) (now : ℤ)
    (cache : PlaylistCache) (url : PyStr) : ProxyResult × PlaylistCache × Nat :=
  match fetchText url with
  | .error _ => (.fail 502, cache, 1)
  | .ok text =>
    (.resp (rewrite_playlist urljoin url text) MIME_M3U8,
     cacheSet cache url ⟨rewrite_playlist urljoin url text, now⟩, 1)

/-- The whole `/proxy_playlist` handler (lines 266–285): missing or empty
`url` parameter → 400; fresh cache hit → cached text verbatim with no
fetch; otherwise fetch, rewrite, store, return. -/
def proxy_playlist (fetchText : PyStr → Except PyStr PyStr)
    (urljoin : PyStr → PyStr → PyStr) (now : ℤ)
    (cache : PlaylistCache) (url? : Option PyStr) : ProxyResult × PlaylistCache × Nat :=
  match url? with
  | none => (.fail 400, cache, 0)
  | some url =>
    if url.isEmpty then (.fail 400, cache, 0)
    else
      match proxyRead now cache url with
      | some d => (.resp d MIME_M3U8, cache, 0)
      | none => proxyFetchStore fetchText urljoin now cache url

theorem cacheGet_cacheSet (c : PlaylistCache) (k : PyStr) (v : CacheEntry) :
    cacheGet (cacheSet c k v) k = some v := by
  induction c with
  | nil => simp [cacheSet, cacheGet]
  | cons p rest ih =>
    by_cases h : p.1 == k
    · simp [cacheSet, cacheGet, h]
    · simp only [cacheSet, if_neg h]
      simp only [cacheGet, List.find?_cons, h]
      exact ih

/-- C2: a `/proxy_playlist?url=U` request answered while the cache holds an
entry under the exact key `U` younger than the 5-second TTL returns the
stored text verbatim with no upstream fetch and an unchanged cache;
otherwise the manifest is fetched, rewritten, and stored under key `U`
with the sampled timestamp before the rewritten text is returned. -/
theorem proxy_playlist_cache_spec (fetchText : PyStr → Except PyStr PyStr)
    (urljoin : PyStr → PyStr → PyStr) (now : ℤ) (cache : PlaylistCache)
    (url : PyStr) (hne : url.isEmpty = false) :
    (∀ e : CacheEntry, cacheGet cache url = some e → now - e.ts < 5 →
      proxy_playlist fetchText urljoin now cache (some url) =
        (.resp e.data MIME_M3U8, cache, 0)) ∧
    (proxyRead now cache url = none →
      ∀ text : PyStr, fetchText url = .ok text →
        proxy_playlist fetchText urljoin now cache (some url) =
          (.resp (rewrite_playlist urljoin url text) MIME_M3U8,
           cacheSet cache url ⟨rewrite_playlist urljoin url text, now⟩, 1) ∧
        cacheGet (cacheSet cache url ⟨rewrite_playlist urljoin url text, now⟩) url =
          some ⟨rewrite_playlist urljoin url text, now⟩) := by
  constructor
  · intro e he hts
    simp only [proxy_playlist, hne, Bool.false_eq_true, if_false, proxyRead, he, if_pos hts]
  · intro hmiss text hok
    refine ⟨?_, cacheGet_cacheSet cache url ⟨rewrite_playlist urljoin url text, now⟩⟩
    simp only [proxy_playlist, hne, Bool.false_eq_true, if_false, hmiss,
      proxyFetchStore, hok]

/-- Witness for C2: a concrete hit (cache entry 3 seconds old) and, for the
miss conjunct, a concrete successful fetch. -/
theorem proxy_playlist_cache_spec_witness :
    ((pyOfString "http://h/p.m3u8").isEmpty = false) ∧
    ((∀ e : CacheEntry,
      cacheGet [(pyOfString "http://h/p.m3u8", ⟨pyOfString "cached", 7⟩)]
        (pyOfString "http://h/p.m3u8") = some e → (10 : ℤ) - e.ts < 5 →
      proxy_playlist (fun _ => .ok (pyOfString "#EXTM3U")) (fun _ r => r) 10
          [(pyOfString "http://h/p.m3u8", ⟨pyOfString "cached", 7⟩)]
          (some (pyOfString "http://h/p.m3u8")) =
        (.resp e.data MIME_M3U8,
         [(pyOfString "http://h/p.m3u8", ⟨pyOfString "cached", 7⟩)], 0)) ∧
    (proxyRead 10 [(pyOfString "http://h/p.m3u8", ⟨pyOfString "cached", 7⟩)]
        (pyOfString "http://h/p.m3u8") = none →
      ∀ text : PyStr, (fun _ => .ok (pyOfString "#EXTM3U") :
          PyStr → Except PyStr PyStr) (pyOfString "http://h/p.m3u8") = .ok text →
        proxy_playlist (fun _ => .ok (pyOfString "#EXTM3U")) (fun _ r => r) 10
            [(pyOfString "http://h/p.m3u8", ⟨pyOfString "cached", 7⟩)]
            (some (pyOfString "http://h/p.m3u8")) =
          (.resp (rewrite_playlist (fun _ r => r) (pyOfString "http://h/p.m3u8") text)
            MIME_M3U8,
           cacheSet [(pyOfString "http://h/p.m3u8", ⟨pyOfString "cached", 7⟩)]
             (pyOfString "http://h/p.m3u8")
             ⟨rewrite_playlist (fun _ r => r) (pyOfString "http://h/p.m3u8") text, 10⟩, 1) ∧
        cacheGet (cacheSet [(pyOfString "http://h/p.m3u8", ⟨pyOfString "cached", 7⟩)]
            (pyOfString "http://h/p.m3u8")
            ⟨rewrite_playlist (fun _ r => r) (pyOfString "http://h/p.m3u8") text, 10⟩)
          (pyOfString "http://h/p.m3u8") =
          some ⟨rewrite_playlist (fun _ r => r) (pyOfString "http://h/p.m3u8") text, 10⟩)) :=
  ⟨by decide, proxy_playlist_cache_spec (fun _ => .ok (pyOfString "#EXTM3U"))
    (fun _ r => r) 10 [(pyOfString "http://h/p.m3u8", ⟨pyOfString "cached", 7⟩)]
    (pyOfString "http://h/p.m3u8") (by decide)⟩

/-- C10: if the upstream fetch raises (origin unreachable or HTTP error
status via `raise_for_status`), `/proxy_playlist` answers 502 and the cache
is returned unchanged — no entry for the URL is created or updated. -/
theorem proxy_playlist_fetch_error_atomic (fetchText : PyStr → Except PyStr PyStr)
    (urljoin : PyStr → PyStr → PyStr) (now : ℤ) (cache : PlaylistCache)
    (url : PyStr) (hne : url.isEmpty = false)
    (hmiss : proxyRead now cache url = none)
    (e : PyStr) (herr : fetchText url = .error e) :
    proxy_playlist fetchText urljoin now cache (some url) = (.fail 502, cache, 1) := by
  simp only [proxy_playlist, hne, Bool.false_eq_true, if_false, hmiss,
    proxyFetchStore, herr]

/-- Witness for C10: a failing fetch against a cache that has a (stale)
entry for the same URL; the entry survives untouched. -/
theorem proxy_playlist_fetch_error_atomic_witness :
    ((pyOfString "http://h/p.m3u8").isEmpty = false) ∧
    proxyRead 100 [(pyOfString "http://h/p.m3u8", ⟨pyOfString "old", 7⟩)]
      (pyOfString "http://h/p.m3u8") = none ∧
    ((fun _ => .error (pyOfString "connection refused") :
        PyStr → Except PyStr PyStr) (pyOfString "http://h/p.m3u8") =
      .error (pyOfString "connection refused")) ∧
    proxy_playlist (fun _ => .error (pyOfString "connection refused")) (fun _ r => r) 100
        [(pyOfString "http://h/p.m3u8", ⟨pyOfString "old", 7⟩)]
        (some (pyOfString "http://h/p.m3u8")) =
      (.fail 502, [(pyOfString "http://h/p.m3u8", ⟨pyOfString "old", 7⟩)], 1) :=
  ⟨by decide, by decide, rfl,
    proxy_playlist_fetch_error_atomic (fun _ => .error (pyOfString "connection refused"))
      (fun _ r => r) 100 [(pyOfString "http://h/p.m3u8", ⟨pyOfString "old", 7⟩)]
      (pyOfString "http://h/p.m3u8") (by decide) (by decide)
      (pyOfString "connection refused") rfl⟩

/-- The check-check-fetch-fetch interleaving of two concurrent
`/proxy_playlist` requests for the same URL: both requests execute the
cache check (lines 272–275) before either performs the fetch-and-store
suspension (lines 277–285). The handler holds no lock, so this schedule is
permitted; the result counts the upstream fetches performed. -/
def interleavedFetches (fetchText : PyStr → Except PyStr PyStr)
    (urljoin : PyStr → PyStr → PyStr) (now : ℤ)
    (cache : PlaylistCache) (url : PyStr) : Nat :=
  let readA := proxyRead now cache url
  let readB := proxyRead now cache url
  let stepA : Nat × PlaylistCache :=
    match readA with
    | some _ => (0, cache)
    | none =>
      let o := proxyFetchStore fetchText urljoin now cache url
      (o.2.2, o.2.1)
  let stepB : Nat × PlaylistCache :=
    match readB with
    | some _ => (0, stepA.2)
    | none =>
      let o := proxyFetchStore fetchText urljoin now stepA.2 url
      (o.2.2, o.2.1)
  stepA.1 + stepB.1

theorem proxyFetchStore_count (fetchText : PyStr → Except PyStr PyStr)
    (urljoin : PyStr → PyStr → PyStr) (now : ℤ)
    (cache : PlaylistCache) (url : PyStr) :
    (proxyFetchStore fetchText urljoin now cache url).2.2 = 1 := by
  unfold proxyFetchStore
  cases fetchText url <;> rfl

/-- C3 (refuted by the code): the handler decomposes into an unlocked cache
check followed by a fetch-and-store, and under the check-check-fetch-fetch
schedule two concurrent requests for the same URL against an empty cache
perform **two** upstream fetches — not the single coalesced fetch the claim
requires. -/
theorem proxy_playlist_concurrent_double_fetch (fetchText : PyStr → Except PyStr PyStr)
    (urljoin : PyStr → PyStr → PyStr) (now : ℤ) (url : PyStr) :
    (∀ cache : PlaylistCache, url.isEmpty = false →
      proxy_playlist fetchText urljoin now cache (some url) =
        match proxyRead now cache url with
        | some d => (.resp d MIME_M3U8, cache, 0)
        | none => proxyFetchStore fetchText urljoin now cache url) ∧
    interleavedFetches fetchText urljoin now [] url = 2 := by
  constructor
  · intro cache hne
    simp only [proxy_playlist, hne, Bool.false_eq_true, if_false]
  · have hread : proxyRead now [] url = none := by
      simp [proxyRead, cacheGet]
    simp only [interleavedFetches, hread]
    rw [proxyFetchStore_count, proxyFetchStore_count]

/-- Witness for C3's theorem at a concrete URL and fetch function. -/
theorem proxy_playlist_concurrent_double_fetch_witness :
    ((∀ cache : PlaylistCache, (pyOfString "http://h/p.m3u8").isEmpty = false →
      proxy_playlist (fun _ => .ok (pyOfString "#EXTM3U")) (fun _ r => r) 0 cache
          (some (pyOfString "http://h/p.m3u8")) =
        match proxyRead 0 cache (pyOfString "http://h/p.m3u8") with
        | some d => (.resp d MIME_M3U8, cache, 0)
        | none => proxyFetchStore (fun _ => .ok (pyOfString "#EXTM3U")) (fun _ r => r) 0
            cache (pyOfString "http://h/p.m3u8")) ∧
    interleavedFetches (fun _ => .ok (pyOfString "#EXTM3U")) (fun _ r => r) 0 []
      (pyOfString "http://h/p.m3u8") = 2) :=
  proxy_playlist_concurrent_double_fetch (fun _ => .ok (pyOfString "#EXTM3U"))
    (fun _ r => r) 0 (pyOfString "http://h/p.m3u8")

/-! ### `capture_first_m3u8` and its request observer (src/app.py
lines 122–175) — claims C4, C5

Each Playwright attempt opens a fresh browser context whose observed
request URLs are modelled as an explicit event list; `on_request` is the
callback of lines 131–135 acting on the per-session `captured` slot. -/

/-- Python `pat in s` (substring test). -/
def hasSubstring (pat : PyStr) : PyStr → Bool
  | [] => pat.isEmpty
  | c :: rest => pat.isPrefixOf (c :: rest) || hasSubstring pat rest

def M3U8_PAT : PyStr := pyOfString ".m3u8"

/-- Truthiness of `captured["url"]` (`None` and the empty string are falsy). -/
def capturedFalsy : Option PyStr → Bool
  | none => true
  | some s => s.isEmpty

/-- The `on_request` callback: record the URL if it mentions `.m3u8` and the
slot is still unset; otherwise leave the slot alone. -/
def on_request (captured : Option PyStr) (url : PyStr) : Option PyStr :=
  if hasSubstring M3U8_PAT url && capturedFalsy captured then some url else captured

/-- The state of the `captured` slot after a session observed `events`. -/
def runAttempt (events : List PyStr) : Option PyStr :=
  events.foldl on_request none

theorem hasSubstring_ne_nil (u : PyStr) (h : hasSubstring M3U8_PAT u = true) :
    u ≠ [] := by
  intro hnil
  subst hnil
  exact absurd h (by decide)

theorem runAttempt_from_matched (v : PyStr) (hv : hasSubstring M3U8_PAT v = true) :
    ∀ events : List PyStr, events.foldl on_request (some v) = some v := by
  intro events
  induction events with
  | nil => rfl
  | cons e rest ih =>
    have hne := hasSubstring_ne_nil v hv
    have hfalse : capturedFalsy (some v) = false := by
      simp [capturedFalsy, List.isEmpty_iff, hne]
    simp only [List.foldl_cons, on_request, hfalse, Bool.and_false, Bool.false_eq_true,
      if_false]
    exact ih

/-- C4: the captured-URL slot is written at most once per session — after any
event sequence it holds exactly the first URL containing `.m3u8`, and once
some event has matched, appending further events never changes it. -/
theorem on_request_first_writer_wins (events : List PyStr) :
    runAttempt events = events.find? (fun u => hasSubstring M3U8_PAT u) ∧
    (∀ e : PyStr, (events.find? (fun u => hasSubstring M3U8_PAT u)).isSome →
      runAttempt (events ++ [e]) = runAttempt events) := by
  have hmain : ∀ evs : List PyStr,
      evs.foldl on_request none = evs.find? (fun u => hasSubstring M3U8_PAT u) := by
    intro evs
    induction evs with
    | nil => rfl
    | cons u rest ih =>
      by_cases hm : hasSubstring M3U8_PAT u = true
      · simp only [List.foldl_cons, on_request, hm, capturedFalsy, Bool.and_true,
          Bool.true_and, if_true, List.find?_cons_of_pos _ hm]
        exact runAttempt_from_matched u hm rest
      · rw [List.find?_cons_of_neg _ hm]
        simp only [List.foldl_cons, on_request, hm, Bool.false_and, Bool.false_eq_true,
          if_false]
        exact ih
  refine ⟨hmain events, ?_⟩
  intro e hsome
  obtain ⟨v, hv⟩ := Option.isSome_iff_exists.mp hsome
  have hvmatch : hasSubstring M3U8_PAT v = true := List.find?_some hv
  unfold runAttempt
  rw [List.foldl_append, hmain events, hv]
  simp only [List.foldl_cons, List.foldl_nil]
  have hne := hasSubstring_ne_nil v hvmatch
  simp [on_request, capturedFalsy, List.isEmpty_iff, hne]

/-- Witness for C4: three events — a miss, a first match (recorded), and a
later match (ignored). -/
theorem on_request_first_writer_wins_witness :
    (runAttempt [pyOfString "http://a/x.js", pyOfString "http://a/one.m3u8",
        pyOfString "http://a/two.m3u8"] =
      List.find? (fun u => hasSubstring M3U8_PAT u)
        [pyOfString "http://a/x.js", pyOfString "http://a/one.m3u8",
         pyOfString "http://a/two.m3u8"] ∧
    (∀ e : PyStr, (List.find? (fun u => hasSubstring M3U8_PAT u)
        [pyOfString "http://a/x.js", pyOfString "http://a/one.m3u8",
         pyOfString "http://a/two.m3u8"]).isSome →
      runAttempt ([pyOfString "http://a/x.js", pyOfString "http://a/one.m3u8",
          pyOfString "http://a/two.m3u8"] ++ [e]) =
        runAttempt [pyOfString "http://a/x.js", pyOfString "http://a/one.m3u8",
          pyOfString "http://a/two.m3u8"])) ∧
    runAttempt [pyOfString "http://a/x.js", pyOfString "http://a/one.m3u8",
        pyOfString "http://a/two.m3u8"] = some (pyOfString "http://a/one.m3u8") :=
  ⟨on_request_first_writer_wins [pyOfString "http://a/x.js",
    pyOfString "http://a/one.m3u8", pyOfString "http://a/two.m3u8"], by decide⟩

/-- The `for attempt in range(1, retries + 1)` loop of `capture_first_m3u8`:
each attempt runs in a fresh session whose observed request URLs are
`events attempt`; the loop returns as soon as an attempt's slot is set and
also counts the attempts made. -/
def captureLoop (events : Nat → List PyStr) : List Nat → Nat → Option PyStr × Nat
  | [], made => (none, made)
  | k :: ks, made =>
    match runAttempt (events k) with
    | some u => (some u, made + 1)
    | none => captureLoop events ks (made + 1)

/-- `capture_first_m3u8(page_url, retries)` (lines 122–175): up to `retries`
fresh isolated sessions; the captured URL of the first successful attempt,
else `None`. -/
def capture_first_m3u8 (events : Nat → List PyStr) (retries : Nat) : Option PyStr × Nat :=
  captureLoop events (List.range' 1 retries) 0

/-- C5: with the attempt budget 3 used at the call site, `capture_first_m3u8`
makes at most 3 attempts (each a fresh session with its own event stream),
returns the URL captured by the earliest successful attempt as soon as it
occurs, and returns the definitive `none` exactly when all three attempts
capture nothing — never a value that no attempt captured, never an
unbounded retry. -/
theorem capture_first_m3u8_spec (events : Nat → List PyStr) :
    (capture_first_m3u8 events 3).2 ≤ 3 ∧
    ((capture_first_m3u8 events 3).1 = none ↔
      runAttempt (events 1) = none ∧ runAttempt (events 2) = none ∧
        runAttempt (events 3) = none) ∧
    (∀ u : PyStr, (capture_first_m3u8 events 3).1 = some u →
      ∃ k : Nat, 1 ≤ k ∧ k ≤ 3 ∧ runAttempt (events k) = some u ∧
        (capture_first_m3u8 events 3).2 = k ∧
        ∀ j : Nat, 1 ≤ j → j < k → runAttempt (events j) = none) := by
  unfold capture_first_m3u8
  rw [show List.range' 1 3 = [1, 2, 3] from rfl]
  cases h1 : runAttempt (events 1) with
  | some u1 =>
    simp only [captureLoop, h1]
    refine ⟨by omega, ?_, ?_⟩
    · simp [h1]
    · intro u hu
      obtain rfl : u1 = u := by simpa using hu
      exact ⟨1, by omega, by omega, h1, rfl, by intro j hj1 hj2; omega⟩
  | none =>
    cases h2 : runAttempt (events 2) with
    | some u2 =>
      simp only [captureLoop, h1, h2]
      refine ⟨by omega, ?_, ?_⟩
      · simp [h2]
      · intro u hu
        obtain rfl : u2 = u := by simpa using hu
        refine ⟨2, by omega, by omega, h2, rfl, ?_⟩
        intro j hj1 hj2
        have : j = 1 := by omega
        rw [this]
        exact h1
    | none =>
      cases h3 : runAttempt (events 3) with
      | some u3 =>
        simp only [captureLoop, h1, h2, h3]
        refine ⟨by omega, ?_, ?_⟩
        · simp [h3]
        · intro u hu
          obtain rfl : u3 = u := by simpa using hu
          refine ⟨3, by omega, by omega, h3, rfl, ?_⟩
          intro j hj1 hj2
          interval_cases j
          · exact h1
          · exact h2
      | none =>
        simp only [captureLoop, h1, h2, h3]
        refine ⟨by omega, ?_, ?_⟩
        · simp [h1, h2, h3]
        · intro u hu
          exact absurd hu (by simp)

/-- Witness for C5: attempts 1 and 3 observe no manifest request, attempt 2
captures one; the loop stops after 2 attempts with that URL. -/
theorem capture_first_m3u8_spec_witness :
    ((capture_first_m3u8 (fun k => if k = 2 then [pyOfString "http://a/v.m3u8"]
        else [pyOfString "http://a/x.js"]) 3).2 ≤ 3 ∧
    ((capture_first_m3u8 (fun k => if k = 2 then [pyOfString "http://a/v.m3u8"]
        else [pyOfString "http://a/x.js"]) 3).1 = none ↔
      runAttempt ((fun k => if k = 2 then [pyOfString "http://a/v.m3u8"]
        else [pyOfString "http://a/x.js"]) 1) = none ∧
      runAttempt ((fun k => if k = 2 then [pyOfString "http://a/v.m3u8"]
        else [pyOfString "http://a/x.js"]) 2) = none ∧
      runAttempt ((fun k => if k = 2 then [pyOfString "http://a/v.m3u8"]
        else [pyOfString "http://a/x.js"]) 3) = none) ∧
    (∀ u : PyStr, (capture_first_m3u8 (fun k => if k = 2 then [pyOfString "http://a/v.m3u8"]
        else [pyOfString "http://a/x.js"]) 3).1 = some u →
      ∃ k : Nat, 1 ≤ k ∧ k ≤ 3 ∧
        runAttempt ((fun k => if k = 2 then [pyOfString "http://a/v.m3u8"]
          else [pyOfString "http://a/x.js"]) k) = some u ∧
        (capture_first_m3u8 (fun k => if k = 2 then [pyOfString "http://a/v.m3u8"]
          else [pyOfString "http://a/x.js"]) 3).2 = k ∧
        ∀ j : Nat, 1 ≤ j → j < k →
          runAttempt ((fun k => if k = 2 then [pyOfString "http://a/v.m3u8"]
            else [pyOfString "http://a/x.js"]) j) = none)) ∧
    capture_first_m3u8 (fun k => if k = 2 then [pyOfString "http://a/v.m3u8"]
        else [pyOfString "http://a/x.js"]) 3 =
      (some (pyOfString "http://a/v.m3u8"), 2) :=
  ⟨capture_first_m3u8_spec (fun k => if k = 2 then [pyOfString "http://a/v.m3u8"]
      else [pyOfString "http://a/x.js"]), by decide⟩

/-! ### `get_best_variant` (src/app.py lines 177–189) — claim C6

The regex `(#EXT-X-STREAM-INF:[^\n]+\n)([^\n]+\.m3u8)` of `re.findall` is
implemented directly: at each position try the literal header, then a
non-empty run of non-newline characters up to a newline, then a second
group which — by greedy backtracking — extends to the last `.m3u8` on the
following line with at least one character before it; scanning resumes at
the end of the match. The manifest body is passed in as `text` (the code
fetches it with `requests.get` first). -/

def STREAMINF : PyStr := pyOfString "#EXT-X-STREAM-INF:"

/-- End position (exclusive) of the greedy `[^\n]+\.m3u8` match at the start
of `line2`, if any: the last occurrence of `.m3u8` preceded by at least one
character. -/
def lastM3u8End (line2 : PyStr) : Option Nat :=
  (List.range line2.length).foldl
    (fun acc k => if 1 ≤ k && M3U8_PAT.isPrefixOf (line2.drop k) then some (k + 5) else acc)
    none

/-- Fuelled scanner for the `re.findall` call: returns the list of
`(stream-inf line, playlist-url)` pairs in order of occurrence. -/
def scanVariantsGo : Nat → PyStr → List (PyStr × PyStr)
  | 0, _ => []
  | _ + 1, [] => []
  | fuel + 1, c :: rest =>
    if STREAMINF.isPrefixOf (c :: rest) then
      let after := (c :: rest).drop 18
      let t1 := after.takeWhile (fun x => x != 10)
      if t1.isEmpty then scanVariantsGo fuel rest
      else
        match after.drop t1.length with
        | 10 :: rest2 =>
          let line2 := rest2.takeWhile (fun x => x != 10)
          match lastM3u8End line2 with
          | some e =>
            (STREAMINF ++ t1 ++ [10], line2.take e) :: scanVariantsGo fuel (rest2.drop e)
          | none => scanVariantsGo fuel rest
        | _ => scanVariantsGo fuel rest
    else scanVariantsGo fuel rest

/-- All `(#EXT-X-STREAM-INF:…, ….m3u8)` pairs found in the manifest text. -/
def scanVariants (s : PyStr) : List (PyStr × PyStr) := scanVariantsGo s.length s

def RESOLUTION_PAT : PyStr := pyOfString "RESOLUTION="

def isDigitCp (n : Nat) : Bool := 48 ≤ n && n ≤ 57

/-- Python `int` of a run of decimal digits. -/
def digitsToNat (ds : PyStr) : Nat := ds.foldl (fun a d => a * 10 + (d - 48)) 0

/-- Match `RESOLUTION=(\d+)x(\d+)` at the start of `s`; on success return the
numeric value of the second group (the vertical resolution). -/
def matchResolutionAt (s : PyStr) : Option Nat :=
  if RESOLUTION_PAT.isPrefixOf s then
    let after := s.drop 11
    let d1 := after.takeWhile isDigitCp
    if d1.isEmpty then none
    else
      match after.drop d1.length with
      | 120 :: rest2 =>
        let d2 := rest2.takeWhile isDigitCp
        if d2.isEmpty then none else some (digitsToNat d2)
      | _ => none
  else none

/-- `re.search(r"RESOLUTION=(\d+)x(\d+)", attrs)`: leftmost match. -/
def searchResolution : PyStr → Option Nat
  | [] => none
  | c :: rest =>
    match matchResolutionAt (c :: rest) with
    | some v => some v
    | none => searchResolution rest

/-- The `max` key of line 185: `int(group(2))` when the attribute line
declares a resolution, `0` otherwise. -/
def resKey (v : PyStr × PyStr) : Nat :=
  match searchResolution v.1 with
  | some h => h
  | none => 0

/-- Python `max(xs, key=...)`: scan left to right, replacing the current best
only on a strictly larger key, so the first of several maxima wins. -/
def bestBy {α β : Type} [LinearOrder β] (key : α → β) (a : α) (l : List α) : α :=
  l.foldl (fun best x => if key best < key x then x else best) a

/-- `get_best_variant(m3u8_url)` applied to the fetched manifest body `text`:
the input URL itself when no variant pair is found, else `urljoin` of the
input URL with the URL of the best variant. -/
def get_best_variant (urljoin : PyStr → PyStr → PyStr) (m3u8_url text : PyStr) : PyStr :=
  match scanVariants text with
  | [] => m3u8_url
  | v :: vs => urljoin m3u8_url (bestBy resKey v vs).2

theorem bestBy_split {α β : Type} [LinearOrder β] (key : α → β) :
    ∀ (l : List α) (a : α),
      ∃ pre post, a :: l = pre ++ bestBy key a l :: post ∧
        (∀ w ∈ pre, key w < key (bestBy key a l)) ∧
        (∀ w ∈ a :: l, key w ≤ key (bestBy key a l)) := by
  intro l
  induction l with
  | nil =>
    intro a
    exact ⟨[], [], rfl, by simp, by simp [bestBy]⟩
  | cons x l ih =>
    intro a
    by_cases hx : key a < key x
    · have hstep : bestBy key a (x :: l) = bestBy key x l := by
        simp [bestBy, hx]
      obtain ⟨pre, post, heq, hpre, hall⟩ := ih x
      refine ⟨a :: pre, post, ?_, ?_, ?_⟩
      · rw [hstep, List.cons_append, ← heq]
      · intro w hw
        rcases List.mem_cons.mp hw with rfl | hw
        · rw [hstep]
          exact lt_of_lt_of_le hx (hall x (by simp))
        · rw [hstep]
          exact hpre w hw
      · intro w hw
        rw [hstep]
        rcases List.mem_cons.mp hw with rfl | hw
        · exact le_of_lt (lt_of_lt_of_le hx (hall x (by simp)))
        · exact hall w hw
    · have hstep : bestBy key a (x :: l) = bestBy key a l := by
        simp [bestBy, hx]
      obtain ⟨pre, post, heq, hpre, hall⟩ := ih a
      cases pre with
      | nil =>
        simp only [List.nil_append] at heq
        have ha : bestBy key a l = a := ((List.cons.injEq _ _ _ _).mp heq).1.symm
        have hpost : post = l := ((List.cons.injEq _ _ _ _).mp heq).2.symm
        refine ⟨[], x :: post, ?_, by simp, ?_⟩
        · rw [hstep, List.nil_append, ha, hpost]
        · intro w hw
          rw [hstep]
          rcases List.mem_cons.mp hw with rfl | hw2
          · exact hall w (List.mem_cons_self w l)
          · rcases List.mem_cons.mp hw2 with rfl | hw3
            · rw [ha]
              exact not_lt.mp hx
            · exact hall w (by simp [hw3])
      | cons p pre' =>
        simp only [List.cons_append] at heq
        have hp : p = a := ((List.cons.injEq _ _ _ _).mp heq).1.symm
        have hl : l = pre' ++ bestBy key a l :: post := ((List.cons.injEq _ _ _ _).mp heq).2
        have hpa : key a < key (bestBy key a l) := by
          have hmem := hpre p (List.mem_cons_self p pre')
          rw [hp] at hmem
          exact hmem
        refine ⟨a :: x :: pre', post, ?_, ?_, ?_⟩
        · rw [hstep, List.cons_append, List.cons_append, ← hl]
        · intro w hw
          rw [hstep]
          rcases List.mem_cons.mp hw with rfl | hw2
          · exact hpa
          · rcases List.mem_cons.mp hw2 with rfl | hw3
            · exact lt_of_le_of_lt (not_lt.mp hx) hpa
            · exact hpre w (by simp [hw3])
        · intro w hw
          rw [hstep]
          rcases List.mem_cons.mp hw with rfl | hw2
          · exact hall w (List.mem_cons_self w l)
          · rcases List.mem_cons.mp hw2 with rfl | hw3
            · exact le_trans (not_lt.mp hx) (hall a (List.mem_cons_self a l))
            · exact hall w (by simp [hw3])

/-- C6: with no `(#EXT-X-STREAM-INF, playlist-URL)` pair found,
`get_best_variant` returns the input URL unchanged; otherwise it returns
`urljoin(input URL, P)` where `P` belongs to a found pair whose declared
vertical resolution (0 when the attribute is missing) is maximal, and every
pair occurring earlier has a strictly smaller key — the first-encountered
maximum wins. -/
theorem get_best_variant_spec (urljoin : PyStr → PyStr → PyStr) (url text : PyStr) :
    (scanVariants text = [] → get_best_variant urljoin url text = url) ∧
    (scanVariants text ≠ [] →
      ∃ (chosen : PyStr × PyStr) (pre post : List (PyStr × PyStr)),
        scanVariants text = pre ++ chosen :: post ∧
        get_best_variant urljoin url text = urljoin url chosen.2 ∧
        (∀ w ∈ scanVariants text, resKey w ≤ resKey chosen) ∧
        (∀ w ∈ pre, resKey w < resKey chosen)) := by
  constructor
  · intro h
    unfold get_best_variant
    rw [h]
  · intro hne
    cases hsv : scanVariants text with
    | nil => exact absurd hsv hne
    | cons v vs =>
      obtain ⟨pre, post, heq, hpre, hall⟩ := bestBy_split resKey vs v
      refine ⟨bestBy resKey v vs, pre, post, heq, ?_, hall, hpre⟩
      unfold get_best_variant
      rw [hsv]

example : scanVariants (pyOfString
    "#EXT-X-STREAM-INF:RESOLUTION=640x480\nlow.m3u8\n#EXT-X-STREAM-INF:RESOLUTION=1920x1080\nhigh.m3u8\n") =
    [(pyOfString "#EXT-X-STREAM-INF:RESOLUTION=640x480\n", pyOfString "low.m3u8"),
     (pyOfString "#EXT-X-STREAM-INF:RESOLUTION=1920x1080\n", pyOfString "high.m3u8")] := by
  decide

example : get_best_variant (fun _ r => pyOfString "http://h/" ++ r)
    (pyOfString "http://h/master.m3u8")
    (pyOfString "#EXT-X-STREAM-INF:RESOLUTION=640x480\nlow.m3u8\n#EXT-X-STREAM-INF:RESOLUTION=1920x1080\nhigh.m3u8\n") =
    pyOfString "http://h/high.m3u8" := by decide

example : get_best_variant (fun _ r => r) (pyOfString "http://h/media.m3u8")
    (pyOfString "#EXTM3U\nseg1.ts\nseg2.ts\n") = pyOfString "http://h/media.m3u8" := by
  decide

/-- Witness for C6 on a two-variant manifest (480p and 1080p): the theorem
instantiated there, plus the concrete evaluation showing the 1080p playlist
is selected and resolved. -/
theorem get_best_variant_spec_witness :
    ((scanVariants (pyOfString
        "#EXT-X-STREAM-INF:RESOLUTION=640x480\nlow.m3u8\n#EXT-X-STREAM-INF:RESOLUTION=1920x1080\nhigh.m3u8\n") = [] →
      get_best_variant (fun _ r => pyOfString "http://h/" ++ r)
        (pyOfString "http://h/master.m3u8")
        (pyOfString
          "#EXT-X-STREAM-INF:RESOLUTION=640x480\nlow.m3u8\n#EXT-X-STREAM-INF:RESOLUTION=1920x1080\nhigh.m3u8\n") =
        pyOfString "http://h/master.m3u8") ∧
    (scanVariants (pyOfString
        "#EXT-X-STREAM-INF:RESOLUTION=640x480\nlow.m3u8\n#EXT-X-STREAM-INF:RESOLUTION=1920x1080\nhigh.m3u8\n") ≠ [] →
      ∃ (chosen : PyStr × PyStr) (pre post : List (PyStr × PyStr)),
        scanVariants (pyOfString
          "#EXT-X-STREAM-INF:RESOLUTION=640x480\nlow.m3u8\n#EXT-X-STREAM-INF:RESOLUTION=1920x1080\nhigh.m3u8\n") =
          pre ++ chosen :: post ∧
        get_best_variant (fun _ r => pyOfString "http://h/" ++ r)
          (pyOfString "http://h/master.m3u8")
          (pyOfString
            "#EXT-X-STREAM-INF:RESOLUTION=640x480\nlow.m3u8\n#EXT-X-STREAM-INF:RESOLUTION=1920x1080\nhigh.m3u8\n") =
          (fun _ r => pyOfString "http://h/" ++ r) (pyOfString "http://h/master.m3u8") chosen.2 ∧
        (∀ w ∈ scanVariants (pyOfString
            "#EXT-X-STREAM-INF:RESOLUTION=640x480\nlow.m3u8\n#EXT-X-STREAM-INF:RESOLUTION=1920x1080\nhigh.m3u8\n"),
          resKey w ≤ resKey chosen) ∧
        (∀ w ∈ pre, resKey w < resKey chosen))) ∧
    get_best_variant (fun _ r => pyOfString "http://h/" ++ r)
      (pyOfString "http://h/master.m3u8")
      (pyOfString
        "#EXT-X-STREAM-INF:RESOLUTION=640x480\nlow.m3u8\n#EXT-X-STREAM-INF:RESOLUTION=1920x1080\nhigh.m3u8\n") =
      pyOfString "http://h/high.m3u8" :=
  ⟨get_best_variant_spec (fun _ r => pyOfString "http://h/" ++ r)
    (pyOfString "http://h/master.m3u8")
    (pyOfString
      "#EXT-X-STREAM-INF:RESOLUTION=640x480\nlow.m3u8\n#EXT-X-STREAM-INF:RESOLUTION=1920x1080\nhigh.m3u8\n"),
   by decide⟩

/-! ### `/segment` (src/app.py lines 287–302) — claim C7

`fetch_bytes` (lines 237–240) performs one `requests.get` and calls
`raise_for_status()`, so both transport failures and HTTP error statuses
surface as the `Except.error` branch of the `fetch_bytes` collaborator. -/

/-- A `/segment` response: raw bytes with media type and Content-Length, or
an error status. -/
inductive SegmentResult where
  | okResp (body : List Nat) (mimetype : PyStr) (contentLength : Nat)
  | fail (status : Nat)
deriving DecidableEq

def MIME_TS : PyStr := pyOfString "video/MP2T"

namespace app

/-- The `/segment` handler: missing or empty `u` → 400; otherwise
percent-decode `u`, fetch once, and either relay the raw bytes with their
length and media type `video/MP2T`, or answer 502. The `Nat` counts
upstream fetches (never more than one — no retry). (Namespaced because
Mathlib already has a `segment`.) -/
def segment (fetch_bytes : PyStr → Except PyStr (List Nat))
    (u? : Option PyStr) : SegmentResult × Nat :=
  match u? with
  | none => (.fail 400, 0)
  | some u =>
    if u.isEmpty then (.fail 400, 0)
    else
      match fetch_bytes (unquote_plus u) with
      | .error _ => (.fail 502, 1)
      | .ok bs => (.okResp bs MIME_TS bs.length, 1)

end app

/-- C7: `/segment?u=E` percent-decodes `E` and fetches the decoded URL
exactly once; on success it responds with exactly the fetched bytes, a
Content-Length equal to the byte count and media type `video/MP2T`; on an
upstream failure (including HTTP error statuses, which `raise_for_status`
turns into exceptions) it responds 502 — in both cases without any retry. -/
theorem segment_spec (fetch_bytes : PyStr → Except PyStr (List Nat))
    (u : PyStr) (hne : u.isEmpty = false) :
    (∀ bs : List Nat, fetch_bytes (unquote_plus u) = .ok bs →
      app.segment fetch_bytes (some u) = (.okResp bs MIME_TS bs.length, 1)) ∧
    (∀ e : PyStr, fetch_bytes (unquote_plus u) = .error e →
      app.segment fetch_bytes (some u) = (.fail 502, 1)) := by
  constructor
  · intro bs hok
    simp only [app.segment, hne, Bool.false_eq_true, if_false, hok]
  · intro e herr
    simp only [app.segment, hne, Bool.false_eq_true, if_false, herr]

/-- Witness for C7: `u` is the percent-encoding of a segment URL; the fetch
function returns three bytes for exactly that decoded URL and fails on
anything else, so the 200-path conjunct is exercised at the decoded URL. -/
theorem segment_spec_witness :
    ((pyOfString "http%3A%2F%2Fh%2Fseg1.ts").isEmpty = false) ∧
    unquote_plus (pyOfString "http%3A%2F%2Fh%2Fseg1.ts") = pyOfString "http://h/seg1.ts" ∧
    ((∀ bs : List Nat,
      (fun url => if url = pyOfString "http://h/seg1.ts" then Except.ok [71, 64, 17]
        else Except.error (pyOfString "404") : PyStr → Except PyStr (List Nat))
          (unquote_plus (pyOfString "http%3A%2F%2Fh%2Fseg1.ts")) = .ok bs →
      app.segment (fun url => if url = pyOfString "http://h/seg1.ts" then Except.ok [71, 64, 17]
          else Except.error (pyOfString "404"))
        (some (pyOfString "http%3A%2F%2Fh%2Fseg1.ts")) = (.okResp bs MIME_TS bs.length, 1)) ∧
    (∀ e : PyStr,
      (fun url => if url = pyOfString "http://h/seg1.ts" then Except.ok [71, 64, 17]
        else Except.error (pyOfString "404") : PyStr → Except PyStr (List Nat))
          (unquote_plus (pyOfString "http%3A%2F%2Fh%2Fseg1.ts")) = .error e →
      app.segment (fun url => if url = pyOfString "http://h/seg1.ts" then Except.ok [71, 64, 17]
          else Except.error (pyOfString "404"))
        (some (pyOfString "http%3A%2F%2Fh%2Fseg1.ts")) = (.fail 502, 1))) ∧
    app.segment (fun url => if url = pyOfString "http://h/seg1.ts" then Except.ok [71, 64, 17]
        else Except.error (pyOfString "404"))
      (some (pyOfString "http%3A%2F%2Fh%2Fseg1.ts")) =
      (.okResp [71, 64, 17] MIME_TS 3, 1) :=
  ⟨by decide, by decide,
   segment_spec (fun url => if url = pyOfString "http://h/seg1.ts" then Except.ok [71, 64, 17]
     else Except.error (pyOfString "404")) (pyOfString "http%3A%2F%2Fh%2Fseg1.ts") (by decide),
   by decide⟩

/-! ### `get_best_match` and `/autocomplete` (src/app.py lines 43–50,
308–316) — claims C8, C9

The `rapidfuzz` scorer (`fuzz.token_sort_ratio`, a similarity on a 0–100
scale) is an explicit parameter; `process.extractOne` / `process.extract`
are modelled from their documented behaviour as best-of / sorted-top-K over
the scored candidates. Scores are integers here: the claims depend only on
ordered comparison against the threshold 60 and on maximisation. -/

/-- One TMDb search result, reduced to the fields the code reads. -/
structure TmdbItem where
  media_type : PyStr
  titleAttr : PyStr
  nameAttr : PyStr
deriving DecidableEq

/-- `r["title"] if r["media_type"] == "movie" else r["name"]`
(lines 44 and 314). -/
def displayName (r : TmdbItem) : PyStr :=
  if r.media_type = pyOfString "movie" then r.titleAttr else r.nameAttr

/-- Every choice with its score and original index, in order. -/
def scoredChoices (scorer : PyStr → PyStr → ℤ) (query : PyStr)
    (choices : List PyStr) : List (PyStr × ℤ × Nat) :=
  choices.enum.map (fun p => (p.2, scorer query p.2, p.1))

/-- `process.extractOne(query, choices, scorer=...)`: the best-scoring
`(choice, score, index)` triple, first among equal maxima, or `None` when
`choices` is empty. -/
def extractOne (scorer : PyStr → PyStr → ℤ) (query : PyStr)
    (choices : List PyStr) : Option (PyStr × ℤ × Nat) :=
  match scoredChoices scorer query choices with
  | [] => none
  | t :: ts => some (bestBy (fun x => x.2.1) t ts)

/-- `get_best_match(title, results)` (lines 43–50): `None` on an empty
candidate list, else `results[idx]` when the best score is truthy and
exceeds 60, else `None`. (`results[idx]` is expressed with the total
lookup `results[idx]?`, which is `some _` whenever the index is in range,
as `extractOne`'s indices always are.) -/
def get_best_match (scorer : PyStr → PyStr → ℤ) (title : PyStr)
    (results : List TmdbItem) : Option TmdbItem :=
  let names := results.map displayName
  if names.isEmpty then none
  else
    match extractOne scorer title names with
    | none => none
    | some t => if t.2.1 ≠ 0 ∧ t.2.1 > 60 then results[t.2.2]? else none

theorem scoredChoices_getElem (scorer : PyStr → PyStr → ℤ) (q : PyStr)
    (choices : List PyStr) :
    ∀ t ∈ scoredChoices scorer q choices,
      choices[t.2.2]? = some t.1 ∧ t.2.1 = scorer q t.1 := by
  intro t ht
  simp only [scoredChoices, List.mem_map] at ht
  obtain ⟨p, hp, rfl⟩ := ht
  refine ⟨?_, rfl⟩
  exact List.mk_mem_enum_iff_getElem?.mp (show (p.1, p.2) ∈ choices.enum from by simpa using hp)

theorem scoredChoices_of_mem (scorer : PyStr → PyStr → ℤ) (q : PyStr)
    (choices : List PyStr) :
    ∀ name ∈ choices, ∃ t ∈ scoredChoices scorer q choices,
      t.1 = name ∧ t.2.1 = scorer q name := by
  intro name hn
  obtain ⟨i, hi⟩ := List.mem_iff_getElem?.mp hn
  refine ⟨(name, scorer q name, i), ?_, rfl, rfl⟩
  simp only [scoredChoices, List.mem_map]
  exact ⟨(i, name), List.mk_mem_enum_iff_getElem?.mpr hi, rfl⟩

/-- C8: `get_best_match` returns a candidate only when its token-order-
insensitive similarity score strictly exceeds 60, and that candidate is
top-scoring; when the result list is empty or every candidate scores at or
below 60, it returns `None`. -/
theorem get_best_match_spec (scorer : PyStr → PyStr → ℤ) (title : PyStr)
    (results : List TmdbItem) :
    (results = [] → get_best_match scorer title results = none) ∧
    (∀ r : TmdbItem, get_best_match scorer title results = some r →
      r ∈ results ∧ scorer title (displayName r) > 60 ∧
      ∀ r2 ∈ results, scorer title (displayName r2) ≤ scorer title (displayName r)) ∧
    ((∀ r2 ∈ results, scorer title (displayName r2) ≤ 60) →
      get_best_match scorer title results = none) := by
  refine ⟨?_, ?_, ?_⟩
  · rintro rfl
    rfl
  · intro r hr
    unfold get_best_match at hr
    by_cases hempty : (results.map displayName).isEmpty
    · rw [if_pos hempty] at hr
      exact absurd hr (by simp)
    · rw [if_neg hempty] at hr
      unfold extractOne at hr
      cases hsc : scoredChoices scorer title (results.map displayName) with
      | nil => rw [hsc] at hr; exact absurd hr (by simp)
      | cons t ts =>
        rw [hsc] at hr
        simp only [] at hr
        set best := bestBy (fun x : PyStr × ℤ × Nat => x.2.1) t ts with hbest
        by_cases hcond : best.2.1 ≠ 0 ∧ best.2.1 > 60
        · rw [if_pos hcond] at hr
          obtain ⟨pre, post, heq, hpre, hall⟩ :=
            bestBy_split (fun x : PyStr × ℤ × Nat => x.2.1) ts t
          have hbmem : best ∈ scoredChoices scorer title (results.map displayName) := by
            rw [hsc, heq]
            exact List.mem_append.mpr (Or.inr (List.mem_cons_self _ _))
          obtain ⟨hidx, hscore⟩ :=
            scoredChoices_getElem scorer title (results.map displayName) best hbmem
          rw [List.getElem?_map, hr] at hidx
          have hdn : displayName r = best.1 := by simpa using hidx
          have hrmem : r ∈ results := by
            have := List.getElem?_eq_some.mp hr
            obtain ⟨hlt, hget⟩ := this
            rw [← hget]
            exact List.getElem_mem hlt
          refine ⟨hrmem, ?_, ?_⟩
          · rw [hdn, ← hscore]
            exact hcond.2
          · intro r2 hr2
            have hn2 : displayName r2 ∈ results.map displayName :=
              List.mem_map_of_mem displayName hr2
            obtain ⟨t2, ht2mem, ht2name, ht2score⟩ :=
              scoredChoices_of_mem scorer title (results.map displayName)
                (displayName r2) hn2
            have := hall t2 (by rw [hsc] at ht2mem; exact ht2mem)
            rw [ht2score] at this
            rw [hdn, ← hscore]
            exact this
        · rw [if_neg hcond] at hr
          exact absurd hr (by simp)
  · intro hle
    unfold get_best_match
    by_cases hempty : (results.map displayName).isEmpty
    · rw [if_pos hempty]
    · rw [if_neg hempty]
      unfold extractOne
      cases hsc : scoredChoices scorer title (results.map displayName) with
      | nil => rfl
      | cons t ts =>
        simp only []
        set best := bestBy (fun x : PyStr × ℤ × Nat => x.2.1) t ts with hbest
        have hbmem : best ∈ scoredChoices scorer title (results.map displayName) := by
          obtain ⟨pre, post, heq, _, _⟩ :=
            bestBy_split (fun x : PyStr × ℤ × Nat => x.2.1) ts t
          rw [hsc, heq]
          exact List.mem_append.mpr (Or.inr (List.mem_cons_self _ _))
        obtain ⟨hidx, hscore⟩ :=
          scoredChoices_getElem scorer title (results.map displayName) best hbmem
        have hname : best.1 ∈ results.map displayName := by
          have := List.getElem?_eq_some.mp hidx
          obtain ⟨hlt, hget⟩ := this
          rw [← hget]
          exact List.getElem_mem hlt
        obtain ⟨r2, hr2, hdn⟩ := List.mem_map.mp hname
        have : best.2.1 ≤ 60 := by
          rw [hscore, ← hdn]
          exact hle r2 hr2
        rw [if_neg (by omega)]

/-- Witness for C8: a two-candidate catalog where the exact-title movie
scores 100 and is returned, plus the concrete evaluation. -/
theorem get_best_match_spec_witness :
    (([] : List TmdbItem) = [] →
      get_best_match (fun q c => if q = c then (100 : ℤ) else 0) (pyOfString "Dune") [] = none) ∧
    ((∀ r : TmdbItem,
      get_best_match (fun q c => if q = c then (100 : ℤ) else 0) (pyOfString "Dune")
        [⟨pyOfString "movie", pyOfString "Dune", []⟩,
         ⟨pyOfString "movie", pyOfString "Tron", []⟩] = some r →
      r ∈ [⟨pyOfString "movie", pyOfString "Dune", []⟩,
           ⟨pyOfString "movie", pyOfString "Tron", []⟩] ∧
      (fun q c => if q = c then (100 : ℤ) else 0) (pyOfString "Dune") (displayName r) > 60 ∧
      ∀ r2 ∈ [(⟨pyOfString "movie", pyOfString "Dune", []⟩ : TmdbItem),
              ⟨pyOfString "movie", pyOfString "Tron", []⟩],
        (fun q c => if q = c then (100 : ℤ) else 0) (pyOfString "Dune") (displayName r2) ≤
          (fun q c => if q = c then (100 : ℤ) else 0) (pyOfString "Dune") (displayName r)) ∧
    ((∀ r2 ∈ [(⟨pyOfString "movie", pyOfString "Dune", []⟩ : TmdbItem),
              ⟨pyOfString "movie", pyOfString "Tron", []⟩],
        (fun q c => if q = c then (100 : ℤ) else 0) (pyOfString "Dune") (displayName r2) ≤ 60) →
      get_best_match (fun q c => if q = c then (100 : ℤ) else 0) (pyOfString "Dune")
        [⟨pyOfString "movie", pyOfString "Dune", []⟩,
         ⟨pyOfString "movie", pyOfString "Tron", []⟩] = none)) ∧
    get_best_match (fun q c => if q = c then (100 : ℤ) else 0) (pyOfString "Dune")
      [⟨pyOfString "movie", pyOfString "Dune", []⟩,
       ⟨pyOfString "movie", pyOfString "Tron", []⟩] =
      some ⟨pyOfString "movie", pyOfString "Dune", []⟩ :=
  ⟨(get_best_match_spec (fun q c => if q = c then (100 : ℤ) else 0) (pyOfString "Dune") []).1,
   ⟨(get_best_match_spec (fun q c => if q = c then (100 : ℤ) else 0) (pyOfString "Dune")
      [⟨pyOfString "movie", pyOfString "Dune", []⟩,
       ⟨pyOfString "movie", pyOfString "Tron", []⟩]).2.1,
    (get_best_match_spec (fun q c => if q = c then (100 : ℤ) else 0) (pyOfString "Dune")
      [⟨pyOfString "movie", pyOfString "Dune", []⟩,
       ⟨pyOfString "movie", pyOfString "Tron", []⟩]).2.2⟩,
   by decide⟩

/-- `process.extract(query, choices, scorer=..., limit=5)`: all scored
candidates in descending score order, truncated to the limit. -/
def extract (scorer : PyStr → PyStr → ℤ) (query : PyStr) (choices : List PyStr)
    (limit : Nat) : List (PyStr × ℤ × Nat) :=
  (List.insertionSort (fun a b => a.2.1 ≥ b.2.1)
    (scoredChoices scorer query choices)).take limit

/-- The `/autocomplete` handler (lines 308–316): empty query → `[]`,
otherwise the names of the top-5 scoring candidates, with no
deduplication. -/
def autocomplete (scorer : PyStr → PyStr → ℤ) (q : PyStr)
    (results : List TmdbItem) : List PyStr :=
  let query := pyStrip q
  if query.isEmpty then []
  else (extract scorer query (results.map displayName) 5).map (fun t => t.1)

instance : IsTotal (PyStr × ℤ × Nat) (fun a b => a.2.1 ≥ b.2.1) :=
  ⟨fun a b => le_total b.2.1 a.2.1⟩

instance : IsTrans (PyStr × ℤ × Nat) (fun a b => a.2.1 ≥ b.2.1) :=
  ⟨fun _ _ _ h1 h2 => le_trans h2 h1⟩

/-- C9 as stated is false of the code: the endpoint performs no
deduplication. With the scorer behaving as `token_sort_ratio` does on
identical strings (score 100), a catalog with two movies both titled
"Dune" — as real TMDb searches return — yields a response containing the
same name twice, and equal names are in particular equal ignoring case. -/
theorem autocomplete_counterexample :
    autocomplete (fun q c => if q = c then (100 : ℤ) else 0) (pyOfString "Dune")
      [⟨pyOfString "movie", pyOfString "Dune", []⟩,
       ⟨pyOfString "movie", pyOfString "Dune", []⟩] =
      [pyOfString "Dune", pyOfString "Dune"] := by decide

/-- C9 amended: `/autocomplete` returns the names of the top-K (K = 5)
scoring candidates in descending score order regardless of the acceptance
threshold, without deduplication (case-insensitive deduplication happens
only client-side, in the player page's script); at most 5 names are
returned, and every returned candidate scores at least as high as every
candidate left out. -/
theorem autocomplete_spec (scorer : PyStr → PyStr → ℤ) (q : PyStr)
    (results : List TmdbItem) :
    ((pyStrip q).isEmpty = true → autocomplete scorer q results = []) ∧
    (autocomplete scorer q results).length ≤ 5 ∧
    ((pyStrip q).isEmpty = false →
      ∃ sorted : List (PyStr × ℤ × Nat),
        sorted.Perm (scoredChoices scorer (pyStrip q) (results.map displayName)) ∧
        List.Sorted (fun a b => a.2.1 ≥ b.2.1) sorted ∧
        autocomplete scorer q results = (sorted.take 5).map (fun t => t.1) ∧
        (∀ x ∈ sorted.take 5, ∀ y ∈ sorted.drop 5, x.2.1 ≥ y.2.1)) := by
  refine ⟨?_, ?_, ?_⟩
  · intro h
    simp [autocomplete, h]
  · by_cases h : (pyStrip q).isEmpty
    · simp [autocomplete, h]
    · simp only [autocomplete, h, Bool.false_eq_true, if_false, List.length_map, extract,
        List.length_take]
      omega
  · intro h
    refine ⟨List.insertionSort (fun a b => a.2.1 ≥ b.2.1)
      (scoredChoices scorer (pyStrip q) (results.map displayName)), ?_, ?_, ?_, ?_⟩
    · exact List.perm_insertionSort _ _
    · exact List.sorted_insertionSort _ _
    · simp [autocomplete, h, extract]
    · intro x hx y hy
      have hsorted := List.sorted_insertionSort (fun a b : PyStr × ℤ × Nat => a.2.1 ≥ b.2.1)
        (scoredChoices scorer (pyStrip q) (results.map displayName))
      unfold List.Sorted at hsorted
      rw [← List.take_append_drop 5 (List.insertionSort (fun a b => a.2.1 ≥ b.2.1)
        (scoredChoices scorer (pyStrip q) (results.map displayName)))] at hsorted
      exact (List.pairwise_append.mp hsorted).2.2 x hx y hy

/-- Witness for the amended C9 at a concrete query and catalog, plus the
concrete evaluation showing the duplicate-bearing top-2 response. -/
theorem autocomplete_spec_witness :
    (((pyStrip (pyOfString "Dune")).isEmpty = true →
      autocomplete (fun q c => if q = c then (100 : ℤ) else 0) (pyOfString "Dune")
        [⟨pyOfString "movie", pyOfString "Dune", []⟩,
         ⟨pyOfString "movie", pyOfString "Dune", []⟩] = []) ∧
    (autocomplete (fun q c => if q = c then (100 : ℤ) else 0) (pyOfString "Dune")
        [⟨pyOfString "movie", pyOfString "Dune", []⟩,
         ⟨pyOfString "movie", pyOfString "Dune", []⟩]).length ≤ 5 ∧
    ((pyStrip (pyOfString "Dune")).isEmpty = false →
      ∃ sorted : List (PyStr × ℤ × Nat),
        sorted.Perm (scoredChoices (fun q c => if q = c then (100 : ℤ) else 0)
          (pyStrip (pyOfString "Dune"))
          ([⟨pyOfString "movie", pyOfString "Dune", []⟩,
            ⟨pyOfString "movie", pyOfString "Dune", []⟩].map displayName)) ∧
        List.Sorted (fun a b => a.2.1 ≥ b.2.1) sorted ∧
        autocomplete (fun q c => if q = c then (100 : ℤ) else 0) (pyOfString "Dune")
          [⟨pyOfString "movie", pyOfString "Dune", []⟩,
           ⟨pyOfString "movie", pyOfString "Dune", []⟩] =
          (sorted.take 5).map (fun t => t.1) ∧
        (∀ x ∈ sorted.take 5, ∀ y ∈ sorted.drop 5, x.2.1 ≥ y.2.1))) ∧
    (pyStrip (pyOfString "Dune")).isEmpty = false :=
  ⟨autocomplete_spec (fun q c => if q = c then (100 : ℤ) else 0) (pyOfString "Dune")
      [⟨pyOfString "movie", pyOfString "Dune", []⟩,
       ⟨pyOfString "movie", pyOfString "Dune", []⟩],
   by decide⟩

/-! ### Fuel adequacy

Each fuelled worker consumes at least one list element per fuel unit, so
the `fuel = length` used in the wrappers never runs out: any fuel at least
the input length computes the same result. These lemmas certify that the
fuel encoding is semantically inert. -/

theorem splitlinesGo_nil (f : Nat) : splitlinesGo f [] = [] := by
  cases f <;> rfl

theorem takeLine_rest_le : ∀ s : PyStr, (takeLine s).2.length ≤ s.length := by
  intro s
  induction s with
  | nil => simp [takeLine]
  | cons c cs ih =>
    simp only [takeLine]
    split
    · split
      · split
        · simp only [Prod.snd, List.length_cons]
          omega
        · simp only [Prod.snd, List.length_cons]
          omega
      · simp only [Prod.snd, List.length_cons]
        omega
    · simp only [Prod.snd, List.length_cons]
      omega

theorem takeLine_rest_cons_le (c : Nat) (cs : PyStr) :
    ((takeLine (c :: cs)).2).length ≤ cs.length := by
  have hcs := takeLine_rest_le cs
  simp only [takeLine]
  split
  · split
    · split
      · simp only [Prod.snd, List.length_cons]
        omega
      · simp only [Prod.snd, List.length_cons]
        omega
    · simp only [Prod.snd, List.length_cons]
      omega
  · simp only [Prod.snd]
    exact hcs

theorem splitlinesGo_fuel_irrel : ∀ (n : Nat) (s : PyStr) (f1 f2 : Nat),
    s.length ≤ n → s.length ≤ f1 → s.length ≤ f2 →
    splitlinesGo f1 s = splitlinesGo f2 s := by
  intro n
  induction n with
  | zero =>
    intro s f1 f2 hn _ _
    have hs : s = [] := List.length_eq_zero.mp (Nat.le_zero.mp hn)
    subst hs
    rw [splitlinesGo_nil, splitlinesGo_nil]
  | succ n ih =>
    intro s f1 f2 hn h1 h2
    cases s with
    | nil => rw [splitlinesGo_nil, splitlinesGo_nil]
    | cons c cs =>
      simp only [List.length_cons] at hn h1 h2
      obtain ⟨g1, rfl⟩ : ∃ g, f1 = g + 1 := ⟨f1 - 1, by omega⟩
      obtain ⟨g2, rfl⟩ : ∃ g, f2 = g + 1 := ⟨f2 - 1, by omega⟩
      simp only [splitlinesGo]
      congr 1
      have hrest := takeLine_rest_cons_le c cs
      exact ih _ g1 g2 (by omega) (by omega) (by omega)

theorem splitlines_fuel_adequate (f : Nat) (s : PyStr) (h : s.length ≤ f) :
    splitlinesGo f s = splitlines s :=
  splitlinesGo_fuel_irrel s.length s f s.length le_rfl h le_rfl

theorem utf8DecodeGo_fuel_irrel : ∀ (n : Nat) (bs : List Nat) (f1 f2 : Nat),
    bs.length ≤ n → bs.length ≤ f1 → bs.length ≤ f2 →
    utf8DecodeGo f1 bs = utf8DecodeGo f2 bs := by
  intro n
  induction n with
  | zero =>
    intro bs f1 f2 hn _ _
    have hb : bs = [] := List.length_eq_zero.mp (Nat.le_zero.mp hn)
    subst hb
    rw [utf8DecodeGo_nil, utf8DecodeGo_nil]
  | succ n ih =>
    intro bs f1 f2 hn h1 h2
    cases bs with
    | nil => rw [utf8DecodeGo_nil, utf8DecodeGo_nil]
    | cons b rest =>
      simp only [List.length_cons] at hn h1 h2
      obtain ⟨g1, rfl⟩ : ∃ g, f1 = g + 1 := ⟨f1 - 1, by omega⟩
      obtain ⟨g2, rfl⟩ : ∃ g, f2 = g + 1 := ⟨f2 - 1, by omega⟩
      rcases rest with _ | ⟨b1, _ | ⟨b2, _ | ⟨b3, rest3⟩⟩⟩ <;>
        simp only [List.length_cons, List.length_nil] at hn h1 h2 <;>
        simp only [utf8DecodeGo] <;>
        split_ifs <;>
        first
          | rfl
          | (congr 1
             exact ih _ g1 g2
               (by first
                 | omega
                 | (simp only [List.length_cons, List.length_nil]; omega))
               (by first
                 | omega
                 | (simp only [List.length_cons, List.length_nil]; omega))
               (by first
                 | omega
                 | (simp only [List.length_cons, List.length_nil]; omega)))

theorem utf8DecodeReplace_fuel_adequate (f : Nat) (bs : List Nat) (h : bs.length ≤ f) :
    utf8DecodeGo f bs = utf8DecodeReplace bs :=
  utf8DecodeGo_fuel_irrel bs.length bs f bs.length le_rfl h le_rfl

theorem unquoteGo_fuel_irrel : ∀ (n : Nat) (s : PyStr) (buf : List Nat) (f1 f2 : Nat),
    s.length ≤ n → s.length ≤ f1 → s.length ≤ f2 →
    unquoteGo f1 s buf = unquoteGo f2 s buf := by
  intro n
  induction n with
  | zero =>
    intro s buf f1 f2 hn _ _
    have hs : s = [] := List.length_eq_zero.mp (Nat.le_zero.mp hn)
    subst hs
    rw [unquoteGo_nil, unquoteGo_nil]
  | succ n ih =>
    intro s buf f1 f2 hn hf1 hf2
    cases s with
    | nil => rw [unquoteGo_nil, unquoteGo_nil]
    | cons c rest =>
      simp only [List.length_cons] at hn hf1 hf2
      obtain ⟨g1, rfl⟩ : ∃ g, f1 = g + 1 := ⟨f1 - 1, by omega⟩
      obtain ⟨g2, rfl⟩ : ∃ g, f2 = g + 1 := ⟨f2 - 1, by omega⟩
      rcases rest with _ | ⟨d1, _ | ⟨d2, rest2⟩⟩
      · simp only [unquoteGo]
        split_ifs <;> rw [unquoteGo_nil, unquoteGo_nil]
      · simp only [List.length_cons, List.length_nil] at hn hf1 hf2
        simp only [unquoteGo]
        split_ifs <;>
          rw [ih [d1] [] g1 g2
            (by simp only [List.length_cons, List.length_nil]; omega)
            (by simp only [List.length_cons, List.length_nil]; omega)
            (by simp only [List.length_cons, List.length_nil]; omega)]
      · simp only [List.length_cons] at hn hf1 hf2
        simp only [unquoteGo]
        split_ifs with hc
        · cases hx : hexVal d1 with
          | none =>
            cases hy : hexVal d2 <;>
              simp only [hx, hy] <;>
              rw [ih (d1 :: d2 :: rest2) [] g1 g2
                (by simp only [List.length_cons]; omega)
                (by simp only [List.length_cons]; omega)
                (by simp only [List.length_cons]; omega)]
          | some a =>
            cases hy : hexVal d2 with
            | none =>
              simp only [hx, hy]
              rw [ih (d1 :: d2 :: rest2) [] g1 g2
                (by simp only [List.length_cons]; omega)
                (by simp only [List.length_cons]; omega)
                (by simp only [List.length_cons]; omega)]
            | some b2 =>
              simp only [hx, hy]
              exact ih rest2 (buf ++ [a * 16 + b2]) g1 g2 (by omega) (by omega) (by omega)
        · rw [ih (d1 :: d2 :: rest2) [] g1 g2
            (by simp only [List.length_cons]; omega)
            (by simp only [List.length_cons]; omega)
            (by simp only [List.length_cons]; omega)]

theorem unquote_plus_fuel_adequate (f : Nat) (s : PyStr) (h : s.length ≤ f) :
    unquoteGo f (s.map fun c => if c == 43 then 32 else c) [] = unquote_plus s := by
  unfold unquote_plus
  exact unquoteGo_fuel_irrel (s.map fun c => if c == 43 then 32 else c).length
    (s.map fun c => if c == 43 then 32 else c) [] f s.length le_rfl (by simpa using h)
    (by simp)

theorem scanVariantsGo_nil (f : Nat) : scanVariantsGo f [] = [] := by
  cases f <;> rfl

theorem scanVariantsGo_fuel_irrel : ∀ (n : Nat) (s : PyStr) (f1 f2 : Nat),
    s.length ≤ n → s.length ≤ f1 → s.length ≤ f2 →
    scanVariantsGo f1 s = scanVariantsGo f2 s := by
  intro n
  induction n with
  | zero =>
    intro s f1 f2 hn _ _
    have hs : s = [] := List.length_eq_zero.mp (Nat.le_zero.mp hn)
    subst hs
    rw [scanVariantsGo_nil, scanVariantsGo_nil]
  | succ n ih =>
    intro s f1 f2 hn hf1 hf2
    cases s with
    | nil => rw [scanVariantsGo_nil, scanVariantsGo_nil]
    | cons c rest =>
      simp only [List.length_cons] at hn hf1 hf2
      obtain ⟨g1, rfl⟩ : ∃ g, f1 = g + 1 := ⟨f1 - 1, by omega⟩
      obtain ⟨g2, rfl⟩ : ∃ g, f2 = g + 1 := ⟨f2 - 1, by omega⟩
      simp only [scanVariantsGo]
      split_ifs with hpre hemp
      · exact ih rest g1 g2 (by omega) (by omega) (by omega)
      · split
        · next rest2 heq =>
          have hlen2 : rest2.length ≤ rest.length := by
            have hcong := congrArg List.length heq
            simp only [List.length_drop, List.length_cons] at hcong
            omega
          cases hl : lastM3u8End (rest2.takeWhile (fun x => x != 10)) with
          | some e =>
            simp only [hl]
            congr 1
            exact ih (rest2.drop e) g1 g2
              (by rw [List.length_drop]; omega)
              (by rw [List.length_drop]; omega)
              (by rw [List.length_drop]; omega)
          | none =>
            simp only [hl]
            exact ih rest g1 g2 (by omega) (by omega) (by omega)
        · exact ih rest g1 g2 (by omega) (by omega) (by omega)
      · exact ih rest g1 g2 (by omega) (by omega) (by omega)

theorem scanVariants_fuel_adequate (f : Nat) (s : PyStr) (h : s.length ≤ f) :
    scanVariantsGo f s = scanVariants s :=
  scanVariantsGo_fuel_irrel s.length s f s.length le_rfl h le_rfl
